import Mathlib

/-!
Verification development for the ngmiDBMS resume-to-job matching and
scoring pipeline.  The Match Engine, Evaluator and Application
Orchestrator are modelled from the specification (their Python sources,
`src/matching_service.py`, `src/ngmi_service.py` and `src/job_service.py`,
are not among the provided sources); the dashboard helpers are embedded
from `src/ui/src/App.tsx`.
-/

namespace Ngmi

/-! ## Match Engine -/

/-- A match result: numeric score, matched-skill set, missing-skill set. -/
structure MatchResult where
  score : ℚ
  matched : Finset String
  missing : Finset String
  deriving DecidableEq

/-- Half-up rounding of `1000 * i / d` computed with natural division;
`score10 i d` is ten times the percentage score `100 * i / d` rounded to
one decimal place. -/
def score10 (i d : ℕ) : ℕ := (2000 * i + d) / (2 * d)

/-- Modelled from the spec: the Match Engine's `match` function
(`src/matching_service.py` is not among the provided sources).
`score = 100 * |resumeSkills ∩ jobRequiredSkills| / max(1, |jobRequiredSkills|)`,
rounded to one decimal place; `matched` is the intersection and `missing`
is `jobRequiredSkills − resumeSkills`. -/
def matchSkills (resumeSkills jobRequiredSkills : Finset String) : MatchResult :=
  { score := (score10 (resumeSkills ∩ jobRequiredSkills).card
      (max 1 jobRequiredSkills.card) : ℚ) / 10
    matched := resumeSkills ∩ jobRequiredSkills
    missing := jobRequiredSkills \ resumeSkills }

/-- The natural-division rounding agrees with mathematical half-up rounding
of the rational `1000 * i / d`. -/
lemma score10_eq_round (i d : ℕ) (hd : 0 < d) :
    (score10 i d : ℤ) = round ((1000 * i : ℚ) / d) := by
  have hd0 : (d : ℚ) ≠ 0 := by exact_mod_cast hd.ne'
  have h1 : (1000 * i : ℚ) / d + 1 / 2 = ((2000 * i + d : ℕ) : ℚ) / ((2 * d : ℕ) : ℚ) := by
    push_cast
    field_simp
    ring
  have h2 : (0 : ℚ) ≤ ((2000 * i + d : ℕ) : ℚ) / ((2 * d : ℕ) : ℚ) := by positivity
  rw [round_eq, h1, ← Int.natCast_floor_eq_floor h2, Nat.floor_div_eq_div]
  rfl

lemma matchSkills_score (r j : Finset String) :
    (matchSkills r j).score = (score10 (r ∩ j).card (max 1 j.card) : ℚ) / 10 := rfl

lemma score10_zero (d : ℕ) (hd : 0 < d) : score10 0 d = 0 := by
  unfold score10
  rw [Nat.mul_zero, Nat.zero_add]
  exact Nat.div_eq_of_lt (by omega)

lemma score10_full (d : ℕ) (hd : 0 < d) : score10 d d = 1000 := by
  unfold score10
  rw [show 2000 * d + d = 2 * d * 1000 + d by ring, Nat.mul_add_div (by omega)]
  rw [Nat.div_eq_of_lt (by omega)]

lemma score10_le (i d : ℕ) (hi : i ≤ d) (hd : 0 < d) : score10 i d ≤ 1000 := by
  calc score10 i d ≤ score10 d d := Nat.div_le_div_right (by omega)
    _ = 1000 := score10_full d hd

lemma matchSkills_empty_resume (j : Finset String) :
    matchSkills ∅ j = ⟨0, ∅, j⟩ := by
  unfold matchSkills
  rw [Finset.empty_inter, Finset.sdiff_empty]
  simp only [MatchResult.mk.injEq, and_true]
  rw [Finset.card_empty, score10_zero _ (by omega)]
  norm_num

/-- C1: for every pair of skill sets, `match` returns
score = `100 * |resumeSkills ∩ jobRequiredSkills| / max(1, |jobRequiredSkills|)`
rounded to one decimal place, matched = the intersection, and
missing = jobRequiredSkills − resumeSkills; in particular
match({python, sql}, {python, sql, react}) yields score 66.7,
matched {python, sql}, missing {react}. -/
theorem match_scoring_rule :
    (∀ r j : Finset String,
      (matchSkills r j).score =
        ((round ((100 * (r ∩ j).card : ℚ) / (max 1 j.card) * 10) : ℤ) : ℚ) / 10 ∧
      (matchSkills r j).matched = r ∩ j ∧
      (matchSkills r j).missing = j \ r) ∧
    matchSkills {"python", "sql"} {"python", "sql", "react"} =
      ⟨667 / 10, {"python", "sql"}, {"react"}⟩ := by
  constructor
  · intro r j
    refine ⟨?_, rfl, rfl⟩
    have hd : 0 < max 1 j.card := by omega
    rw [matchSkills_score]
    have h2 : (100 * (r ∩ j).card : ℚ) / (max 1 j.card) * 10 =
        (1000 * (r ∩ j).card : ℚ) / ((max 1 j.card : ℕ) : ℚ) := by
      push_cast
      ring
    rw [h2, ← score10_eq_round (r ∩ j).card (max 1 j.card) hd]
    push_cast
    ring
  · have hc : ({"python", "sql"} ∩ {"python", "sql", "react"} : Finset String) =
        {"python", "sql"} := by decide
    have hm : ({"python", "sql", "react"} \ {"python", "sql"} : Finset String) =
        {"react"} := by decide
    unfold matchSkills
    rw [hc, hm]
    have hcard : ({"python", "sql"} : Finset String).card = 2 := by decide
    have hjc : max 1 ({"python", "sql", "react"} : Finset String).card = 3 := by decide
    rw [hcard, hjc]
    simp only [MatchResult.mk.injEq, and_true]
    norm_num [score10]

/-- C6: the match score always lies in [0, 100]; it is 0 when the skill
sets are disjoint and 100 when the job's required skills are a nonempty
subset of the resume's skills. -/
theorem match_score_bounds (r j : Finset String) :
    0 ≤ (matchSkills r j).score ∧ (matchSkills r j).score ≤ 100 ∧
    (r ∩ j = ∅ → (matchSkills r j).score = 0) ∧
    (j ⊆ r → j ≠ ∅ → (matchSkills r j).score = 100) := by
  refine ⟨?_, ?_, ?_, ?_⟩
  · rw [matchSkills_score]
    positivity
  · rw [matchSkills_score, div_le_iff₀ (by norm_num)]
    have hi : (r ∩ j).card ≤ max 1 j.card :=
      le_trans (Finset.card_le_card Finset.inter_subset_right) (le_max_right 1 j.card)
    have := score10_le (r ∩ j).card (max 1 j.card) hi (by omega)
    calc (score10 (r ∩ j).card (max 1 j.card) : ℚ) ≤ 1000 := by exact_mod_cast this
      _ = 100 * 10 := by norm_num
  · intro h
    rw [matchSkills_score, h, Finset.card_empty, score10_zero _ (by omega)]
    norm_num
  · intro hsub hne
    have hinter : r ∩ j = j := Finset.inter_eq_right.mpr hsub
    have hpos : 0 < j.card := Finset.card_pos.mpr (Finset.nonempty_iff_ne_empty.mpr hne)
    rw [matchSkills_score, hinter, max_eq_right hpos, score10_full _ hpos]
    norm_num

theorem match_score_bounds_witness :
    (matchSkills {"python"} {"python"}).score = 100 :=
  (match_score_bounds {"python"} {"python"}).2.2.2 (by decide) (by decide)

/-- C7: `match` is total with no error path: an empty resume skill set is
a valid input producing matched = ∅, missing = jobRequiredSkills and
score 0 (in particular match({}, {python}) gives score 0.0, matched {},
missing {python}), and an empty jobRequiredSkills set yields score 0 via
the max(1, ·) guard instead of a division-by-zero error. -/
theorem match_total_no_error (r j : Finset String) :
    matchSkills ∅ j = ⟨0, ∅, j⟩ ∧
    (matchSkills r ∅).score = 0 ∧
    matchSkills ∅ {"python"} = ⟨0, ∅, {"python"}⟩ := by
  refine ⟨matchSkills_empty_resume j, ?_, matchSkills_empty_resume {"python"}⟩
  rw [matchSkills_score, Finset.inter_empty, Finset.card_empty,
    score10_zero _ (by omega)]
  norm_num

/-! ## Application Orchestrator -/

/-- Status of an Application: `Pending`, `Scored` (with final score and
commentary), or `Failed`. -/
inductive AppStatus
  | pending
  | scored (score : ℚ) (comment : String)
  | failed
  deriving DecidableEq

/-- A status is terminal when it is `Scored` or `Failed`. -/
def AppStatus.isTerminal : AppStatus → Bool
  | .pending => false
  | .scored _ _ => true
  | .failed => true

/-- A status is non-Failed when it is `Pending` or `Scored`. -/
def AppStatus.nonFailed : AppStatus → Bool
  | .failed => false
  | _ => true

/-- A status is `Scored`. -/
def AppStatus.isScored : AppStatus → Bool
  | .scored _ _ => true
  | _ => false

/-- An Application row: id, the (user, job, resume) triple and a status.
Score, comment and timestamps of the spec's record are carried inside the
`Scored` status. -/
structure Application where
  id : ℕ
  userId : ℕ
  jobId : ℕ
  resumeId : ℕ
  status : AppStatus
  deriving DecidableEq

/-- Does this row belong to the (user, job, resume) triple? -/
def Application.forTriple (a : Application) (u j r : ℕ) : Bool :=
  a.userId == u && a.jobId == j && a.resumeId == r

/-- The persistence layer visible to the orchestrator: the Application
table, the next fresh row id, and a counter of Evaluator invocations. -/
structure PipelineState where
  apps : List Application
  nextId : ℕ
  evalCalls : ℕ

/-- `findApplication` restricted to Scored rows for a triple. -/
def findScored (st : PipelineState) (u j r : ℕ) : Option Application :=
  st.apps.find? (fun a => a.forTriple u j r && a.status.isScored)

/-- `findPendingApplication` for a triple. -/
def findPending (st : PipelineState) (u j r : ℕ) : Option Application :=
  st.apps.find? (fun a => a.forTriple u j r && a.status == .pending)

/-- Result of the `apply` precondition phase. -/
inductive StartOutcome
  | existing (a : Application)
  | inProgress
  | started (a : Application)
  deriving DecidableEq

/-- Modelled from the spec: the Application Orchestrator's `apply` entry
(`src/job_service.py` is not among the provided sources).  If a Scored row
for the triple exists it is returned directly with no external call; if a
Pending row exists the call is rejected with `AlreadyInProgress`; otherwise
a Pending row is created and the Evaluator is invoked (counted by
`evalCalls`). -/
def startApply (st : PipelineState) (u j r : ℕ) : PipelineState × StartOutcome :=
  match findScored st u j r with
  | some a => (st, .existing a)
  | none =>
    match findPending st u j r with
    | some _ => (st, .inProgress)
    | none =>
      let app : Application := ⟨st.nextId, u, j, r, .pending⟩
      (⟨st.apps ++ [app], st.nextId + 1, st.evalCalls + 1⟩, .started app)

/-- Outcome of one full Evaluator run for an application. -/
inductive EvalOutcome
  | success (score : ℚ) (comment : String)
  | failure
  deriving DecidableEq

/-- The terminal status an Evaluator outcome transitions a Pending row to. -/
def EvalOutcome.toStatus : EvalOutcome → AppStatus
  | .success s c => .scored s c
  | .failure => .failed

/-- Modelled from the spec: `transitionApplication` as used by the
Evaluator step — the row with the given id, if Pending, atomically becomes
Scored or Failed. -/
def transitionApp (st : PipelineState) (i : ℕ) (out : EvalOutcome) : PipelineState :=
  { st with apps := st.apps.map (fun a =>
      if a.id == i && a.status == .pending then { a with status := out.toStatus } else a) }

/-- Modelled from the spec: the crash-recovery sweep — stale Pending rows
are marked Failed so users can retry.  Staleness (an age timeout) is
abstracted as a predicate on rows. -/
def recoverySweep (st : PipelineState) (stale : Application → Bool) : PipelineState :=
  { st with apps := st.apps.map (fun a =>
      if a.status == .pending && stale a then { a with status := .failed } else a) }

/-- The pipeline operations acting on the Application table. -/
inductive PipelineOp
  | start (u j r : ℕ)
  | finish (i : ℕ) (out : EvalOutcome)
  | sweep (stale : Application → Bool)

/-- One pipeline operation applied to the persistence state. -/
def stepOp (st : PipelineState) : PipelineOp → PipelineState
  | .start u j r => (startApply st u j r).1
  | .finish i out => transitionApp st i out
  | .sweep stale => recoverySweep st stale

/-- C2: a second `apply` with a triple that already has a Scored row
returns that existing row unchanged (same id, score, comment), leaves the
Application table untouched (no new record) and does not invoke the
Evaluator again. -/
theorem apply_idempotent (st : PipelineState) (u j r : ℕ) (a : Application)
    (h : findScored st u j r = some a) :
    startApply st u j r = (st, .existing a) ∧
    (startApply st u j r).1.apps = st.apps ∧
    (startApply st u j r).1.evalCalls = st.evalCalls := by
  unfold startApply
  rw [h]
  exact ⟨rfl, rfl, rfl⟩

/-- A concrete already-Scored state used to instantiate the theorems. -/
def sampleScoredApp : Application := ⟨1, 1, 1, 1, .scored (421 / 10) "mid"⟩

/-- A one-row state whose only row is the Scored sample application. -/
def sampleScoredState : PipelineState := ⟨[sampleScoredApp], 2, 1⟩

theorem apply_idempotent_witness :
    startApply sampleScoredState 1 1 1 = (sampleScoredState, .existing sampleScoredApp) :=
  (apply_idempotent sampleScoredState 1 1 1 sampleScoredApp rfl).1

/-- Two rows clash when they share a triple and are both non-Failed. -/
def TripleClash (a b : Application) : Prop :=
  a.forTriple b.userId b.jobId b.resumeId = true →
  a.status.nonFailed = true → b.status.nonFailed = true → False

/-- The uniqueness invariant: at most one non-Failed Application per
(user, job, resume) triple. -/
def UniqueNonFailed (st : PipelineState) : Prop :=
  st.apps.Pairwise TripleClash

lemma AppStatus.nonFailed_cases {s : AppStatus} (h : s.nonFailed = true) :
    s = .pending ∨ s.isScored = true := by
  cases s with
  | pending => exact Or.inl rfl
  | scored q c => exact Or.inr rfl
  | failed => exact absurd h (by simp [AppStatus.nonFailed])

lemma pairwise_map_preserved (f : Application → Application)
    (hu : ∀ a, (f a).userId = a.userId) (hj : ∀ a, (f a).jobId = a.jobId)
    (hr : ∀ a, (f a).resumeId = a.resumeId)
    (hnf : ∀ a, (f a).status.nonFailed = true → a.status.nonFailed = true)
    {l : List Application} (h : l.Pairwise TripleClash) :
    (l.map f).Pairwise TripleClash := by
  refine List.Pairwise.map f ?_ h
  intro a b hab htrip hna hnb
  refine hab ?_ (hnf a hna) (hnf b hnb)
  simpa only [Application.forTriple, hu, hj, hr] using htrip

lemma startApply_preserves_unique (st : PipelineState) (u j r : ℕ)
    (h : UniqueNonFailed st) : UniqueNonFailed (startApply st u j r).1 := by
  unfold startApply
  cases hfs : findScored st u j r with
  | some a => exact h
  | none =>
    cases hfp : findPending st u j r with
    | some a => exact h
    | none =>
      show (st.apps ++ [(⟨st.nextId, u, j, r, .pending⟩ : Application)]).Pairwise TripleClash
      rw [List.pairwise_append]
      refine ⟨h, List.pairwise_singleton _ _, ?_⟩
      intro a ha b hb
      rw [List.mem_singleton] at hb
      subst hb
      intro htrip hna _
      have hfs' := List.find?_eq_none.mp hfs a ha
      have hfp' := List.find?_eq_none.mp hfp a ha
      have htrip' : a.forTriple u j r = true := htrip
      rcases AppStatus.nonFailed_cases hna with hp | hs
      · exact hfp' (by simp [htrip', hp])
      · exact hfs' (by simp [htrip', hs])

lemma transitionApp_preserves_unique (st : PipelineState) (i : ℕ) (out : EvalOutcome)
    (h : UniqueNonFailed st) : UniqueNonFailed (transitionApp st i out) := by
  refine pairwise_map_preserved _ ?_ ?_ ?_ ?_ h
  · intro a
    dsimp only
    split <;> rfl
  · intro a
    dsimp only
    split <;> rfl
  · intro a
    dsimp only
    split <;> rfl
  · intro a hfa
    split at hfa
    · rename_i hcond
      have hp : a.status = .pending := by
        have := (Bool.and_eq_true _ _).mp hcond
        exact beq_iff_eq.mp this.2
      rw [hp]
      rfl
    · exact hfa

lemma recoverySweep_preserves_unique (st : PipelineState) (stale : Application → Bool)
    (h : UniqueNonFailed st) : UniqueNonFailed (recoverySweep st stale) := by
  refine pairwise_map_preserved _ ?_ ?_ ?_ ?_ h
  · intro a
    dsimp only
    split <;> rfl
  · intro a
    dsimp only
    split <;> rfl
  · intro a
    dsimp only
    split <;> rfl
  · intro a hfa
    split at hfa
    · exact absurd hfa (by simp [AppStatus.nonFailed])
    · exact hfa

/-- C4: every state reachable from the empty table by pipeline operations
has at most one non-Failed Application per (user, job, resume) triple, and
each pipeline operation — apply, the Evaluator transition and the recovery
sweep — preserves this invariant. -/
theorem unique_nonFailed_invariant :
    (∀ ops : List PipelineOp, UniqueNonFailed (ops.foldl stepOp ⟨[], 0, 0⟩)) ∧
    ∀ st op, UniqueNonFailed st → UniqueNonFailed (stepOp st op) := by
  have hstep : ∀ st op, UniqueNonFailed st → UniqueNonFailed (stepOp st op) := by
    intro st op h
    cases op with
    | start u j r => exact startApply_preserves_unique st u j r h
    | finish i out => exact transitionApp_preserves_unique st i out h
    | sweep stale => exact recoverySweep_preserves_unique st stale h
  refine ⟨?_, hstep⟩
  intro ops
  have hfold : ∀ st, UniqueNonFailed st → UniqueNonFailed (ops.foldl stepOp st) := by
    induction ops with
    | nil => exact fun st h => h
    | cons op ops ih => exact fun st h => ih _ (hstep st op h)
  exact hfold ⟨[], 0, 0⟩ List.Pairwise.nil

theorem unique_nonFailed_invariant_witness :
    UniqueNonFailed (stepOp sampleScoredState (.start 1 2 1)) :=
  unique_nonFailed_invariant.2 sampleScoredState (.start 1 2 1)
    (List.pairwise_singleton _ _)

lemma startApply_apps_eq (st : PipelineState) (u j r : ℕ) :
    (startApply st u j r).1.apps = st.apps ∨
    (startApply st u j r).1.apps = st.apps ++ [⟨st.nextId, u, j, r, .pending⟩] := by
  unfold startApply
  cases findScored st u j r with
  | some a => exact Or.inl rfl
  | none =>
    cases findPending st u j r with
    | some a => exact Or.inl rfl
    | none => exact Or.inr rfl

lemma step_no_delete (st : PipelineState) (op : PipelineOp) :
    ∀ a ∈ st.apps, ∃ a' ∈ (stepOp st op).apps,
      a'.id = a.id ∧ a'.userId = a.userId ∧ a'.jobId = a.jobId ∧
      a'.resumeId = a.resumeId ∧
      (a'.status = a.status ∨ (a.status = .pending ∧ a'.status.isTerminal = true)) := by
  intro a ha
  cases op with
  | start u j r =>
    refine ⟨a, ?_, rfl, rfl, rfl, rfl, Or.inl rfl⟩
    rcases startApply_apps_eq st u j r with he | he <;> rw [stepOp, he]
    · exact ha
    · exact List.mem_append_left _ ha
  | finish i out =>
    refine ⟨_, List.mem_map_of_mem _ ha, ?_⟩
    dsimp only
    split
    · rename_i hcond
      have hp : a.status = .pending :=
        beq_iff_eq.mp ((Bool.and_eq_true _ _).mp hcond).2
      refine ⟨rfl, rfl, rfl, rfl, Or.inr ⟨hp, ?_⟩⟩
      cases out <;> rfl
    · exact ⟨rfl, rfl, rfl, rfl, Or.inl rfl⟩
  | sweep stale =>
    refine ⟨_, List.mem_map_of_mem _ ha, ?_⟩
    dsimp only
    split
    · rename_i hcond
      have hp : a.status = .pending :=
        beq_iff_eq.mp ((Bool.and_eq_true _ _).mp hcond).1
      exact ⟨rfl, rfl, rfl, rfl, Or.inr ⟨hp, rfl⟩⟩
    · exact ⟨rfl, rfl, rfl, rfl, Or.inl rfl⟩

lemma step_new_pending (st : PipelineState) (op : PipelineOp) :
    ∀ a' ∈ (stepOp st op).apps, a' ∈ st.apps ∨ a'.status = .pending ∨
      ∃ a ∈ st.apps, a.id = a'.id ∧ a.status = .pending ∧
        a'.status.isTerminal = true := by
  intro a' ha'
  cases op with
  | start u j r =>
    rcases startApply_apps_eq st u j r with he | he <;> rw [stepOp, he] at ha'
    · exact Or.inl ha'
    · rcases List.mem_append.mp ha' with h | h
      · exact Or.inl h
      · rw [List.mem_singleton] at h
        subst h
        exact Or.inr (Or.inl rfl)
  | finish i out =>
    rcases List.mem_map.mp ha' with ⟨a, ha, hfa⟩
    subst hfa
    split
    · rename_i hcond
      have hp : a.status = .pending :=
        beq_iff_eq.mp ((Bool.and_eq_true _ _).mp hcond).2
      refine Or.inr (Or.inr ⟨a, ha, rfl, hp, ?_⟩)
      cases out <;> rfl
    · exact Or.inl ha
  | sweep stale =>
    rcases List.mem_map.mp ha' with ⟨a, ha, hfa⟩
    subst hfa
    split
    · rename_i hcond
      have hp : a.status = .pending :=
        beq_iff_eq.mp ((Bool.and_eq_true _ _).mp hcond).1
      exact Or.inr (Or.inr ⟨a, ha, rfl, hp, rfl⟩)
    · exact Or.inl ha

/-- C5: every Application is created with status Pending; a pipeline
operation mutates a status only from Pending to a terminal Scored or
Failed status; a Scored or Failed row keeps its status under every further
pipeline operation; and no pipeline operation deletes an Application. -/
theorem application_lifecycle :
    (∀ st op, (∀ a' ∈ (stepOp st op).apps, a' ∈ st.apps ∨ a'.status = .pending ∨
        ∃ a ∈ st.apps, a.id = a'.id ∧ a.status = .pending ∧
          a'.status.isTerminal = true) ∧
      ∀ a ∈ st.apps, ∃ a' ∈ (stepOp st op).apps,
        a'.id = a.id ∧ a'.userId = a.userId ∧ a'.jobId = a.jobId ∧
        a'.resumeId = a.resumeId ∧
        (a'.status = a.status ∨ (a.status = .pending ∧ a'.status.isTerminal = true))) ∧
    ∀ (ops : List PipelineOp) (st : PipelineState), ∀ a ∈ st.apps,
      a.status.isTerminal = true →
      ∃ a' ∈ (ops.foldl stepOp st).apps, a'.id = a.id ∧ a'.status = a.status := by
  refine ⟨fun st op => ⟨step_new_pending st op, step_no_delete st op⟩, ?_⟩
  intro ops
  induction ops with
  | nil => exact fun st a ha hterm => ⟨a, ha, rfl, rfl⟩
  | cons op ops ih =>
    intro st a ha hterm
    rcases step_no_delete st op a ha with ⟨a', ha', hid, _, _, _, hstat⟩
    have hstat' : a'.status = a.status := by
      rcases hstat with h | ⟨hp, _⟩
      · exact h
      · rw [hp] at hterm
        exact absurd hterm (by simp [AppStatus.isTerminal])
    rcases ih (stepOp st op) a' ha' (by rw [hstat']; exact hterm) with
      ⟨a'', ha'', hid'', hstat''⟩
    exact ⟨a'', ha'', by rw [hid'', hid], by rw [hstat'', hstat']⟩

theorem application_lifecycle_witness :
    ∃ a' ∈ (([PipelineOp.sweep (fun _ => true)]).foldl stepOp sampleScoredState).apps,
      a'.id = sampleScoredApp.id ∧ a'.status = sampleScoredApp.status :=
  application_lifecycle.2 [PipelineOp.sweep (fun _ => true)] sampleScoredState
    sampleScoredApp (List.mem_singleton.mpr rfl) rfl

/-! ## Evaluator retry policy -/

/-- Errors of the external generate call and of response parsing. -/
inductive EvalError
  | timeout
  | rateLimited
  | malformedResponse
  | serviceError
  deriving DecidableEq

/-- Timeouts, rate limits and malformed responses are transient; the
auth/config `ServiceError` is permanent. -/
def EvalError.isTransient : EvalError → Bool
  | .timeout => true
  | .rateLimited => true
  | .malformedResponse => true
  | .serviceError => false

/-- The Evaluator's fixed retry bound. -/
def maxAttempts : ℕ := 3

/-- Modelled from the spec: the Evaluator's retry loop around the external
generate call (`src/ngmi_service.py` and `src/llm_utils.py` are not among
the provided sources).  `oracle k` is the parsed outcome of the k-th
attempt; the loop returns the first success, retries a transient error
while attempts remain, stops immediately on a permanent error, and also
reports how many attempts were made. -/
def runEval (oracle : ℕ → Except EvalError (ℚ × String)) :
    ℕ → ℕ → Except EvalError (ℚ × String) × ℕ
  | _, 0 => (.error .timeout, 0)
  | k, fuel + 1 =>
    match oracle k with
    | .ok v => (.ok v, 1)
    | .error e =>
      if e.isTransient && fuel != 0 then
        let rest := runEval oracle (k + 1) fuel
        (rest.1, rest.2 + 1)
      else (.error e, 1)

/-- `evaluate` runs the retry loop from the first attempt with the fixed
bound of `maxAttempts` attempts. -/
def evaluate (oracle : ℕ → Except EvalError (ℚ × String)) :
    Except EvalError (ℚ × String) × ℕ :=
  runEval oracle 0 maxAttempts

/-- C8: a transient error is retried up to the fixed bound of 3 attempts
and exhaustion yields an error after exactly 3 attempts; the Pending row
then transitions to Failed, a subsequent `apply` for a triple whose rows
are all Failed is permitted and starts fresh; and a permanent
`ServiceError` propagates immediately after a single attempt, never
retried. -/
theorem evaluator_retry_policy (oracle : ℕ → Except EvalError (ℚ × String))
    (st : PipelineState) (u j r i : ℕ) (a : Application) :
    ((∀ k < 3, ∃ e, EvalError.isTransient e = true ∧ oracle k = .error e) →
      (evaluate oracle).2 = 3 ∧
      ∃ e, EvalError.isTransient e = true ∧ (evaluate oracle).1 = .error e) ∧
    (oracle 0 = .error .serviceError →
      evaluate oracle = (.error .serviceError, 1)) ∧
    (a ∈ st.apps → a.id = i → a.status = .pending →
      ∃ a' ∈ (transitionApp st i .failure).apps, a'.id = a.id ∧ a'.status = .failed) ∧
    ((∀ b ∈ st.apps, b.forTriple u j r = true → b.status = .failed) →
      (startApply st u j r).2 = .started ⟨st.nextId, u, j, r, .pending⟩) := by
  refine ⟨?_, ?_, ?_, ?_⟩
  · intro h
    obtain ⟨e0, ht0, ho0⟩ := h 0 (by omega)
    obtain ⟨e1, ht1, ho1⟩ := h 1 (by omega)
    obtain ⟨e2, ht2, ho2⟩ := h 2 (by omega)
    have h2' : runEval oracle 2 1 = (.error e2, 1) := by
      rw [runEval, ho2]
      simp
    have h1' : runEval oracle 1 2 = (.error e2, 2) := by
      rw [runEval, ho1]
      simp [ht1, h2']
    have h0' : evaluate oracle = (.error e2, 3) := by
      rw [evaluate, maxAttempts, runEval, ho0]
      simp [ht0, h1']
    exact ⟨by rw [h0'], e2, ht2, by rw [h0']⟩
  · intro h
    rw [evaluate, maxAttempts, runEval, h]
    simp [EvalError.isTransient]
  · intro ha hid hp
    refine ⟨_, List.mem_map_of_mem _ ha, ?_⟩
    dsimp only
    rw [if_pos (by simp [hid, hp])]
    exact ⟨rfl, rfl⟩
  · intro h
    have hfs : findScored st u j r = none := by
      refine List.find?_eq_none.mpr fun x hx => ?_
      cases hft : x.forTriple u j r with
      | false => simp [hft]
      | true => simp [hft, h x hx hft, AppStatus.isScored]
    have hfp : findPending st u j r = none := by
      refine List.find?_eq_none.mpr fun x hx => ?_
      cases hft : x.forTriple u j r with
      | false => simp [hft]
      | true => simp [hft, h x hx hft]
    unfold startApply
    rw [hfs, hfp]

theorem evaluator_retry_policy_witness :
    evaluate (fun _ => .error .serviceError) = (.error .serviceError, 1) :=
  (evaluator_retry_policy (fun _ => .error .serviceError) ⟨[], 0, 0⟩ 0 0 0 0
    ⟨0, 0, 0, 0, .pending⟩).2.1 rfl

/-! ## Single-flight concurrency model -/

/-- Program counter of one `apply` caller in the single-flight model. -/
inductive CallerPC
  | start
  | waiting
  | evaluating
  | done (a : Application)
  deriving DecidableEq

/-- System state for one fixed fresh triple: the (at most one) Application
row for that triple, the number of Evaluator invocations so far, and the
program counters of the concurrent callers. -/
structure FlightState where
  row : Option Application
  evalCalls : ℕ
  callers : List CallerPC

/-- Modelled from the spec: interleaved execution of N concurrent `apply`
calls for one fresh (user, job, resume) triple (the orchestrator source is
not among the provided sources).  Checking the preconditions and creating
the Pending row is a single atomic step, as mandated by the spec's
exclusivity mechanism keyed by the triple; the §4.4 waiting policy is
modelled, so callers that find a Pending row wait and return the in-flight
result once it is Scored. -/
inductive FlightStep (u j r : ℕ) : FlightState → FlightState → Prop
  | beginFresh (st : FlightState) (i : ℕ)
      (hpc : st.callers[i]? = some .start) (hrow : st.row = none) :
      FlightStep u j r st
        ⟨some ⟨0, u, j, r, .pending⟩, st.evalCalls + 1,
          st.callers.set i .evaluating⟩
  | beginWait (st : FlightState) (i : ℕ) (a : Application)
      (hpc : st.callers[i]? = some .start) (hrow : st.row = some a)
      (hp : a.status = .pending) :
      FlightStep u j r st ⟨st.row, st.evalCalls, st.callers.set i .waiting⟩
  | beginScored (st : FlightState) (i : ℕ) (a : Application)
      (hpc : st.callers[i]? = some .start) (hrow : st.row = some a)
      (hs : a.status.isScored = true) :
      FlightStep u j r st ⟨st.row, st.evalCalls, st.callers.set i (.done a)⟩
  | finish (st : FlightState) (i : ℕ) (a : Application) (s : ℚ) (c : String)
      (hpc : st.callers[i]? = some .evaluating) (hrow : st.row = some a)
      (hp : a.status = .pending) :
      FlightStep u j r st
        ⟨some { a with status := .scored s c }, st.evalCalls,
          st.callers.set i (.done { a with status := .scored s c })⟩
  | wake (st : FlightState) (i : ℕ) (a : Application)
      (hpc : st.callers[i]? = some .waiting) (hrow : st.row = some a)
      (hs : a.status.isScored = true) :
      FlightStep u j r st ⟨st.row, st.evalCalls, st.callers.set i (.done a)⟩

/-- The initial state for N callers and a fresh triple: no row, no
Evaluator invocations, every caller about to enter `apply`. -/
def flightInit (n : ℕ) : FlightState := ⟨none, 0, List.replicate n .start⟩

/-- States reachable by interleaving the N callers' steps. -/
def FlightReachable (u j r n : ℕ) (st : FlightState) : Prop :=
  Relation.ReflTransGen (FlightStep u j r) (flightInit n) st

/-- The inductive invariant of the single-flight system. -/
def FlightInv (st : FlightState) : Prop :=
  (st.row = none ∧ st.evalCalls = 0 ∧
    ∀ (k : ℕ) (pc : CallerPC), st.callers[k]? = some pc → pc = .start) ∨
  ∃ a, st.row = some a ∧ st.evalCalls = 1 ∧
    ((a.status = .pending ∧ ∃ i, st.callers[i]? = some CallerPC.evaluating ∧
        ∀ (k : ℕ) (pc : CallerPC), st.callers[k]? = some pc →
          (pc = .evaluating → k = i) ∧
          (pc = .start ∨ pc = .waiting ∨ pc = .evaluating)) ∨
     (a.status.isScored = true ∧
        ∀ (k : ℕ) (pc : CallerPC), st.callers[k]? = some pc →
          pc = .start ∨ pc = .waiting ∨ pc = .done a))

lemma getElem?_some_lt {l : List CallerPC} {i : ℕ} {pc : CallerPC}
    (h : l[i]? = some pc) : i < l.length := by
  rcases List.getElem?_eq_some.mp h with ⟨hi, _⟩
  exact hi

lemma flightStep_inv {u j r : ℕ} {s t : FlightState}
    (hst : FlightStep u j r s t) (hinv : FlightInv s) : FlightInv t := by
  cases hst with
  | beginFresh i hpc hrow =>
    rcases hinv with ⟨_, hev, hall⟩ | ⟨a, hrow', _⟩
    · refine Or.inr ⟨⟨0, u, j, r, .pending⟩, rfl, by rw [hev],
        Or.inl ⟨rfl, i, ?_, ?_⟩⟩
      · exact List.getElem?_set_self (getElem?_some_lt hpc)
      · intro k pc hk
        by_cases hik : i = k
        · subst hik
          rw [List.getElem?_set_self (getElem?_some_lt hpc)] at hk
          obtain rfl : pc = .evaluating := (Option.some.inj hk).symm
          exact ⟨fun _ => rfl, Or.inr (Or.inr rfl)⟩
        · rw [List.getElem?_set_ne hik] at hk
          obtain rfl : pc = .start := hall k pc hk
          exact ⟨fun h => CallerPC.noConfusion h, Or.inl rfl⟩
    · rw [hrow] at hrow'
      exact Option.noConfusion hrow'
  | beginWait i a hpc hrow hp =>
    rcases hinv with ⟨hnone, _, _⟩ | ⟨a', hrow', hev, hcase⟩
    · rw [hrow] at hnone
      exact Option.noConfusion hnone
    · obtain rfl : a' = a := Option.some.inj (hrow'.symm.trans hrow)
      rcases hcase with ⟨hpend, i0, hi0, hprop⟩ | ⟨hsc, _⟩
      · have hii0 : i ≠ i0 := fun h =>
          CallerPC.noConfusion (Option.some.inj ((h ▸ hpc).symm.trans hi0))
        refine Or.inr ⟨a', hrow', hev, Or.inl ⟨hpend, i0, ?_, ?_⟩⟩
        · rw [List.getElem?_set_ne hii0]
          exact hi0
        · intro k pc hk
          by_cases hik : i = k
          · subst hik
            rw [List.getElem?_set_self (getElem?_some_lt hpc)] at hk
            obtain rfl : pc = .waiting := (Option.some.inj hk).symm
            exact ⟨fun h => CallerPC.noConfusion h, Or.inr (Or.inl rfl)⟩
          · rw [List.getElem?_set_ne hik] at hk
            exact hprop k pc hk
      · rw [hp] at hsc
        exact Bool.noConfusion hsc
  | beginScored i a hpc hrow hs =>
    rcases hinv with ⟨hnone, _, _⟩ | ⟨a', hrow', hev, hcase⟩
    · rw [hrow] at hnone
      exact Option.noConfusion hnone
    · obtain rfl : a' = a := Option.some.inj (hrow'.symm.trans hrow)
      rcases hcase with ⟨hpend, _, _, _⟩ | ⟨hsc, hprop⟩
      · rw [hpend] at hs
        exact Bool.noConfusion hs
      · refine Or.inr ⟨a', hrow', hev, Or.inr ⟨hsc, ?_⟩⟩
        intro k pc hk
        by_cases hik : i = k
        · subst hik
          rw [List.getElem?_set_self (getElem?_some_lt hpc)] at hk
          obtain rfl : pc = .done a' := (Option.some.inj hk).symm
          exact Or.inr (Or.inr rfl)
        · rw [List.getElem?_set_ne hik] at hk
          exact hprop k pc hk
  | finish i a sc c hpc hrow hp =>
    rcases hinv with ⟨_, _, hall⟩ | ⟨a', hrow', hev, hcase⟩
    · exact CallerPC.noConfusion (hall i _ hpc)
    · obtain rfl : a' = a := Option.some.inj (hrow'.symm.trans hrow)
      rcases hcase with ⟨hpend, i0, hi0, hprop⟩ | ⟨hsc, hprop⟩
      · obtain rfl : i = i0 := (hprop i _ hpc).1 rfl
        refine Or.inr ⟨{ a' with status := .scored sc c }, rfl, hev,
          Or.inr ⟨rfl, ?_⟩⟩
        intro k pc hk
        by_cases hik : i = k
        · subst hik
          rw [List.getElem?_set_self (getElem?_some_lt hpc)] at hk
          obtain rfl : pc = .done { a' with status := .scored sc c } :=
            (Option.some.inj hk).symm
          exact Or.inr (Or.inr rfl)
        · rw [List.getElem?_set_ne hik] at hk
          rcases (hprop k pc hk).2 with h' | h' | h'
          · exact Or.inl h'
          · exact Or.inr (Or.inl h')
          · exact absurd ((hprop k pc hk).1 h') (fun he => hik he.symm)
      · rcases hprop i _ hpc with h' | h' | h' <;> exact CallerPC.noConfusion h'
  | wake i a hpc hrow hs =>
    rcases hinv with ⟨_, _, hall⟩ | ⟨a', hrow', hev, hcase⟩
    · exact CallerPC.noConfusion (hall i _ hpc)
    · obtain rfl : a' = a := Option.some.inj (hrow'.symm.trans hrow)
      rcases hcase with ⟨hpend, _, _, _⟩ | ⟨hsc, hprop⟩
      · rw [hpend] at hs
        exact Bool.noConfusion hs
      · refine Or.inr ⟨a', hrow', hev, Or.inr ⟨hsc, ?_⟩⟩
        intro k pc hk
        by_cases hik : i = k
        · subst hik
          rw [List.getElem?_set_self (getElem?_some_lt hpc)] at hk
          obtain rfl : pc = .done a' := (Option.some.inj hk).symm
          exact Or.inr (Or.inr rfl)
        · rw [List.getElem?_set_ne hik] at hk
          exact hprop k pc hk

lemma flightInv_init (n : ℕ) : FlightInv (flightInit n) :=
  Or.inl ⟨rfl, rfl, fun _ _ hk =>
    List.eq_of_mem_replicate (List.getElem?_mem hk)⟩

lemma flightReachable_inv {u j r n : ℕ} {st : FlightState}
    (h : FlightReachable u j r n st) : FlightInv st := by
  induction h with
  | refl => exact flightInv_init n
  | tail _ hstep ih => exact flightStep_inv hstep ih

lemma flightStep_length {u j r : ℕ} {s t : FlightState}
    (hst : FlightStep u j r s t) : t.callers.length = s.callers.length := by
  cases hst <;> simp

lemma flightReachable_length {u j r n : ℕ} {st : FlightState}
    (h : FlightReachable u j r n st) : st.callers.length = n := by
  induction h with
  | refl => simp [flightInit]
  | tail _ hstep ih => rw [flightStep_length hstep, ih]

/-- C3: in every reachable interleaving of N concurrent `apply` calls for
one fresh triple, no two evaluation calls are ever in flight at the same
time; and whenever all N callers (N > 0) have finished, exactly one
Evaluator invocation has happened and every caller observes the same final
Application. -/
theorem single_flight (u j r n : ℕ) (st : FlightState)
    (h : FlightReachable u j r n st) :
    (∀ i k : ℕ, st.callers[i]? = some .evaluating →
      st.callers[k]? = some .evaluating → i = k) ∧
    ((∀ pc ∈ st.callers, ∃ a, pc = CallerPC.done a) → 0 < n →
      st.evalCalls = 1 ∧
      ∃ a, st.row = some a ∧ ∀ pc ∈ st.callers, pc = CallerPC.done a) := by
  have hinv := flightReachable_inv h
  have hlen := flightReachable_length h
  constructor
  · intro i k hi hk
    rcases hinv with ⟨_, _, hall⟩ | ⟨a, _, _, ⟨_, i0, _, hprop⟩ | ⟨_, hprop⟩⟩
    · exact CallerPC.noConfusion (hall i _ hi)
    · rw [(hprop i _ hi).1 rfl, (hprop k _ hk).1 rfl]
    · rcases hprop i _ hi with h' | h' | h' <;> exact CallerPC.noConfusion h'
  · intro hdone hn
    have hlt : 0 < st.callers.length := by
      rw [hlen]
      exact hn
    rcases hinv with ⟨_, _, hall⟩ | ⟨a, hrow, hev, hcase⟩
    · have h0 := List.getElem?_eq_getElem hlt
      have hstart := hall 0 _ h0
      rcases hdone _ (List.getElem?_mem h0) with ⟨a', hda⟩
      rw [hstart] at hda
      exact CallerPC.noConfusion hda
    · rcases hcase with ⟨_, i0, hi0, _⟩ | ⟨_, hprop⟩
      · rcases hdone _ (List.getElem?_mem hi0) with ⟨a', hda⟩
        exact CallerPC.noConfusion hda
      · refine ⟨hev, a, hrow, ?_⟩
        intro pc hmem
        rcases hdone pc hmem with ⟨a', rfl⟩
        rcases List.getElem_of_mem hmem with ⟨k, hklt, hke⟩
        have hk : st.callers[k]? = some (CallerPC.done a') := by
          rw [List.getElem?_eq_getElem hklt, hke]
        rcases hprop k _ hk with h' | h' | h'
        · exact CallerPC.noConfusion h'
        · exact CallerPC.noConfusion h'
        · exact h'

/-- The Pending row created by the first caller in the concrete trace. -/
def flightPendingApp : Application := ⟨0, 1, 1, 1, .pending⟩

/-- The Scored row every caller observes in the concrete trace. -/
def flightScoredApp : Application := ⟨0, 1, 1, 1, .scored 42 "mid"⟩

/-- The final state of a concrete two-caller interleaving. -/
def flightFinal : FlightState :=
  ⟨some flightScoredApp, 1, [.done flightScoredApp, .done flightScoredApp]⟩

lemma flightFinal_reachable : FlightReachable 1 1 1 2 flightFinal := by
  have h1 : FlightStep 1 1 1 (flightInit 2)
      ⟨some flightPendingApp, 1, [.evaluating, .start]⟩ :=
    FlightStep.beginFresh (flightInit 2) 0 rfl rfl
  have h2 : FlightStep 1 1 1
      ⟨some flightPendingApp, 1, [.evaluating, .start]⟩
      ⟨some flightPendingApp, 1, [.evaluating, .waiting]⟩ :=
    FlightStep.beginWait _ 1 flightPendingApp rfl rfl rfl
  have h3 : FlightStep 1 1 1
      ⟨some flightPendingApp, 1, [.evaluating, .waiting]⟩
      ⟨some flightScoredApp, 1, [.done flightScoredApp, .waiting]⟩ :=
    FlightStep.finish _ 0 flightPendingApp 42 "mid" rfl rfl rfl
  have h4 : FlightStep 1 1 1
      ⟨some flightScoredApp, 1, [.done flightScoredApp, .waiting]⟩
      flightFinal :=
    FlightStep.wake _ 1 flightScoredApp rfl rfl rfl
  exact Relation.ReflTransGen.tail
    (Relation.ReflTransGen.tail
      (Relation.ReflTransGen.tail
        (Relation.ReflTransGen.tail Relation.ReflTransGen.refl h1) h2) h3) h4

theorem single_flight_witness :
    flightFinal.evalCalls = 1 ∧
    ∃ a, flightFinal.row = some a ∧
      ∀ pc ∈ flightFinal.callers, pc = CallerPC.done a :=
  (single_flight 1 1 1 2 flightFinal flightFinal_reachable).2
    (by simp [flightFinal]) (by decide)

/-! ## Dashboard UI (src/ui/src/App.tsx) -/

/-- An application row as the dashboard receives it from
`GET /api/users/:userId/applications`; `ngmi_score` is `none` when the
JSON field is null or absent. -/
structure UIApplication where
  application_id : ℕ
  applied_at : Option String
  status : String
  title : String
  company : String
  ngmi_score : Option ℚ
  ngmi_comment : Option String

/-- `averageScore` from `src/ui/src/App.tsx`: keep the loaded applications
whose `ngmi_score` is a number, return null when there are none, otherwise
the arithmetic mean rounded to one decimal place
(`Number((total / scores.length).toFixed(1))`). -/
def averageScore (applications : List UIApplication) : Option ℚ :=
  let scores := applications.filterMap (fun app => app.ngmi_score)
  if scores.length = 0 then none
  else some (((round ((scores.sum / (scores.length : ℚ)) * 10) : ℤ) : ℚ) / 10)

/-- The "Avg. NGMI" stat-card value from `stats` in `src/ui/src/App.tsx`:
the average when it is non-null, the placeholder "—" otherwise. -/
def avgNgmiStatValue (applications : List UIApplication) : String :=
  match averageScore applications with
  | some q => toString q
  | none => "—"

lemma filterMap_score_filter (apps : List UIApplication) :
    (apps.filter (fun app => app.ngmi_score.isSome)).filterMap
        (fun app => app.ngmi_score) =
      apps.filterMap (fun app => app.ngmi_score) := by
  induction apps with
  | nil => rfl
  | cons a t ih =>
    cases hsc : a.ngmi_score with
    | none => simp [List.filter_cons, List.filterMap_cons, hsc, ih]
    | some q => simp [List.filter_cons, List.filterMap_cons, hsc, ih]

/-- C9: the dashboard's average-NGMI statistic is computed over exactly
the loaded applications whose `ngmi_score` is a number: it is their sum
divided by their count rounded to one decimal place, it is null (rendered
as the placeholder "—") when no loaded application has a numeric score,
and applications with a null or absent score contribute to neither the
sum nor the count. -/
theorem dashboard_average (apps : List UIApplication) :
    (apps.filterMap (fun app => app.ngmi_score) ≠ [] →
      averageScore apps =
        some (((round (((apps.filterMap (fun app => app.ngmi_score)).sum /
            ((apps.filterMap (fun app => app.ngmi_score)).length : ℚ)) * 10) : ℤ) : ℚ)
          / 10)) ∧
    (apps.filterMap (fun app => app.ngmi_score) = [] →
      averageScore apps = none ∧ avgNgmiStatValue apps = "—") ∧
    averageScore (apps.filter (fun app => app.ngmi_score.isSome)) =
      averageScore apps := by
  refine ⟨?_, ?_, ?_⟩
  · intro h
    rw [averageScore]
    rw [if_neg (by simpa using List.length_eq_zero.not.mpr h)]
  · intro h
    have h1 : averageScore apps = none := by
      rw [averageScore]
      rw [if_pos (by simp [h])]
    exact ⟨h1, by rw [avgNgmiStatValue, h1]⟩
  · rw [averageScore, averageScore, filterMap_score_filter]

theorem dashboard_average_witness :
    averageScore [] = none ∧ avgNgmiStatValue [] = "—" :=
  (dashboard_average []).2.1 rfl

/-- `formatDate` from `src/ui/src/App.tsx`.  The JS runtime facilities are
parameters of the model: `parseDate s` stands for `new Date(s)`, returning
`none` exactly when the resulting date has a NaN timestamp, and `locale`
stands for `Date.prototype.toLocaleString`.  The input is `none` for
`undefined` or `null`; the falsy test `!value` also catches the empty
string. -/
def formatDate (parseDate : String → Option ℤ) (locale : ℤ → String)
    (value : Option String) : String :=
  match value with
  | none => "—"
  | some s =>
    if s = "" then "—"
    else
      match parseDate s with
      | none => s
      | some t => locale t

/-- C10: `formatDate` is total and never throws: `undefined`, `null` and
the empty string yield the placeholder "—"; a non-empty string that does
not parse to a valid date is returned unchanged; and only a string parsing
to a valid date is converted to locale formatting. -/
theorem formatDate_total (parseDate : String → Option ℤ) (locale : ℤ → String) :
    formatDate parseDate locale none = "—" ∧
    formatDate parseDate locale (some "") = "—" ∧
    (∀ s, s ≠ "" → parseDate s = none →
      formatDate parseDate locale (some s) = s) ∧
    (∀ s t, s ≠ "" → parseDate s = some t →
      formatDate parseDate locale (some s) = locale t) := by
  refine ⟨rfl, rfl, ?_, ?_⟩
  · intro s hs hp
    simp [formatDate, hs, hp]
  · intro s t hs hp
    simp [formatDate, hs, hp]

theorem formatDate_total_witness :
    formatDate (fun _ => none) (fun _ => "") (some "not-a-date") = "not-a-date" :=
  (formatDate_total (fun _ => none) (fun _ => "")).2.2.1 "not-a-date"
    (by decide) rfl

end Ngmi
